import Mathlib

/-!
Verification of the `vocabulator` PDF word-frequency pipeline
(`src/vocabulator.py`).

The pipeline in `extract_book_words` is embedded shallowly:

* characters are Lean `Char`; a word/lemma is a `List Char`;
* the two regex substitutions of lines 78-79 (`re.sub(r"[^\w\s-]", "", t)`
  and `re.sub(r"\s+", " ", t)` followed by `.strip()`) become `List.filter`
  over a keep-set, a run-collapsing recursion, and a two-sided trim;
  the `\w` and `\s` character classes are modelled by Lean's
  `Char.isAlphanum`/underscore and `Char.isWhitespace`;
* the external collaborators (spaCy model, pyspellchecker) are oracles
  passed in as functions: the loaded NLP model gives a token list for the
  cleaned text plus a stopword set, and the spell checker is either an
  exception (`Except.error`, the payload modelling the Python exception
  text) or a dictionary membership predicate.  `spell.known(ws)` returns
  the set of known words among `ws`, modelled as `ws.filter dict`;
* `st.info` / `st.warning` / `st.error` calls become an ordered list of
  `Message` values, so which message fires on which path is part of the
  model;
* `Counter(ls).items()` keeps keys in first-occurrence order with their
  multiplicities; `pandas.sort_values(by="Count", ascending=False)` is
  modelled by an insertion sort that orders rows by count descending
  (pandas' default quicksort guarantees exactly the ordering, not a
  particular tie-break, and the spec declares the tie-break
  non-contractual).

Loading the spaCy model (`load_spacy_model`) halts the whole script on
failure (`st.stop`), so every run modelled here is one where the model
loaded; no claim concerns that path.
-/

namespace Vocabulator

/-- A word / lemma: a string modelled as its character list. -/
abbrev Word := List Char

/-! ### Text cleaner (src/vocabulator.py lines 78-79) -/

/-- Model of the regex class `\w` (word characters). -/
def isWordChar (c : Char) : Bool := c.isAlphanum || c = '_'

/-- Model of the regex class `\s` (whitespace). -/
def isSpaceChar (c : Char) : Bool := c.isWhitespace

/-- Characters kept by `re.sub(r"[^\w\s-]", "", raw_text)`:
word characters, whitespace, and hyphens. -/
def keepChar (c : Char) : Bool := isWordChar c || isSpaceChar c || c = '-'

/-- Model of `re.sub(r"\s+", " ", t)`: each maximal nonempty run of
whitespace characters is replaced by a single space.  The Boolean flag
records whether the previous character was part of a whitespace run. -/
def collapseWS : Bool → List Char → List Char
  | _, [] => []
  | prevSpace, c :: cs =>
    if isSpaceChar c then
      if prevSpace then collapseWS true cs else ' ' :: collapseWS true cs
    else c :: collapseWS false cs

/-- Model of Python `str.strip()`: drop whitespace from both ends. -/
def stripChars (l : List Char) : List Char :=
  ((l.dropWhile isSpaceChar).reverse.dropWhile isSpaceChar).reverse

/-- The text cleaner of lines 78-79: remove every character that is not a
word character, whitespace or hyphen; then collapse whitespace runs to a
single space and trim. -/
def cleanText (s : List Char) : List Char :=
  stripChars (collapseWS false (s.filter keepChar))

/-! #### Cleaner lemmas -/

/-- The no-adjacent-whitespace relation between neighbouring characters. -/
def NotBothSpace (a b : Char) : Prop :=
  ¬(isSpaceChar a = true ∧ isSpaceChar b = true)

theorem mem_collapseWS {c : Char} :
    ∀ {b : Bool} {l : List Char}, c ∈ collapseWS b l →
      c = ' ' ∨ (c ∈ l ∧ isSpaceChar c = false) := by
  intro b l
  induction l generalizing b with
  | nil => intro h; simp [collapseWS] at h
  | cons a as ih =>
    intro h
    cases ha : isSpaceChar a with
    | true =>
      rcases b with _ | _
      · simp only [collapseWS, ha, if_true] at h
        rcases List.mem_cons.mp h with h | h
        · exact Or.inl h
        · rcases ih h with h | ⟨h1, h2⟩
          · exact Or.inl h
          · exact Or.inr ⟨List.mem_cons_of_mem _ h1, h2⟩
      · simp only [collapseWS, ha, if_true] at h
        rcases ih h with h | ⟨h1, h2⟩
        · exact Or.inl h
        · exact Or.inr ⟨List.mem_cons_of_mem _ h1, h2⟩
    | false =>
      simp only [collapseWS, ha, Bool.false_eq_true, if_false] at h
      rcases List.mem_cons.mp h with h | h
      · subst h
        exact Or.inr ⟨List.mem_cons_self _ _, ha⟩
      · rcases ih h with h | ⟨h1, h2⟩
        · exact Or.inl h
        · exact Or.inr ⟨List.mem_cons_of_mem _ h1, h2⟩

theorem head?_collapseWS_true {c : Char} :
    ∀ {l : List Char}, c ∈ (collapseWS true l).head? → isSpaceChar c = false := by
  intro l
  induction l with
  | nil => intro h; simp [collapseWS] at h
  | cons a as ih =>
    intro h
    cases ha : isSpaceChar a with
    | true =>
      simp only [collapseWS, ha, if_true] at h
      exact ih h
    | false =>
      simp only [collapseWS, ha, Bool.false_eq_true, if_false, List.head?_cons,
        Option.mem_def, Option.some.injEq] at h
      subst h
      exact ha

theorem chain'_collapseWS :
    ∀ (b : Bool) (l : List Char), List.Chain' NotBothSpace (collapseWS b l) := by
  intro b l
  induction l generalizing b with
  | nil => simp [collapseWS]
  | cons a as ih =>
    cases ha : isSpaceChar a with
    | true =>
      rcases b with _ | _
      · simp only [collapseWS, ha, if_true]
        refine List.chain'_cons'.mpr ⟨?_, ih true⟩
        intro y hy
        intro ⟨_, hy2⟩
        rw [head?_collapseWS_true hy] at hy2
        exact Bool.false_ne_true hy2
      · simpa only [collapseWS, ha, if_true] using ih true
    | false =>
      simp only [collapseWS, ha, Bool.false_eq_true, if_false]
      refine List.chain'_cons'.mpr ⟨?_, ih false⟩
      intro y _
      intro ⟨ha2, _⟩
      rw [ha] at ha2
      exact Bool.false_ne_true ha2

theorem collapseWS_fix :
    ∀ (l : List Char),
      (∀ c ∈ l, isSpaceChar c = true → c = ' ') →
      List.Chain' NotBothSpace l →
      collapseWS false l = l ∧
        ((∀ c ∈ l.head?, isSpaceChar c = false) → collapseWS true l = l) := by
  intro l
  induction l with
  | nil => intro _ _; exact ⟨rfl, fun _ => rfl⟩
  | cons a as ih =>
    intro hblank hch
    have hrel := (List.chain'_cons'.mp hch).1
    have hch' := (List.chain'_cons'.mp hch).2
    have hblank' : ∀ c ∈ as, isSpaceChar c = true → c = ' ' :=
      fun c hc => hblank c (List.mem_cons_of_mem _ hc)
    have ihs := ih hblank' hch'
    cases ha : isSpaceChar a with
    | true =>
      have haeq : a = ' ' := hblank a (List.mem_cons_self _ _) ha
      have hashead : ∀ c ∈ as.head?, isSpaceChar c = false := by
        intro c hc
        have := hrel c hc
        cases hcs : isSpaceChar c with
        | true => exact absurd ⟨ha, hcs⟩ this
        | false => rfl
      constructor
      · simp only [collapseWS, ha, if_true, Bool.false_eq_true, if_false]
        rw [ihs.2 hashead, haeq]
      · intro hhead
        have := hhead a (by simp)
        rw [ha] at this
        simp at this
    | false =>
      constructor
      · simp only [collapseWS, ha, Bool.false_eq_true, if_false]
        rw [ihs.1]
      · intro _
        simp only [collapseWS, ha, Bool.false_eq_true, if_false]
        rw [ihs.1]

theorem head?_dropWhile_false {p : Char → Bool} :
    ∀ {l : List Char} {c : Char}, c ∈ (l.dropWhile p).head? → p c = false := by
  intro l
  induction l with
  | nil => intro c h; simp [List.dropWhile] at h
  | cons a as ih =>
    intro c h
    cases ha : p a with
    | true =>
      simp only [List.dropWhile, ha] at h
      exact ih h
    | false =>
      simp only [List.dropWhile, ha, Bool.false_eq_true, if_false,
        List.head?_cons, Option.mem_def, Option.some.injEq] at h
      subst h
      exact ha

theorem dropWhile_eq_self_of_head {p : Char → Bool} {l : List Char}
    (h : ∀ c ∈ l.head?, p c = false) : l.dropWhile p = l := by
  cases l with
  | nil => rfl
  | cons a as =>
    have := h a (by simp)
    simp [List.dropWhile, this]

theorem stripChars_eq_self {l : List Char}
    (hh : ∀ c ∈ l.head?, isSpaceChar c = false)
    (hl : ∀ c ∈ l.getLast?, isSpaceChar c = false) : stripChars l = l := by
  unfold stripChars
  rw [dropWhile_eq_self_of_head hh]
  rw [dropWhile_eq_self_of_head (by
    intro c hc
    rw [List.head?_reverse] at hc
    exact hl c hc)]
  exact List.reverse_reverse l

theorem mem_stripChars {c : Char} {l : List Char} (h : c ∈ stripChars l) :
    c ∈ l := by
  unfold stripChars at h
  rw [List.mem_reverse] at h
  have h1 := (List.dropWhile_suffix (l := (l.dropWhile isSpaceChar).reverse)
    isSpaceChar).subset h
  rw [List.mem_reverse] at h1
  exact (List.dropWhile_suffix isSpaceChar).subset h1

theorem stripChars_prefix (l : List Char) :
    stripChars l <+: l.dropWhile isSpaceChar := by
  unfold stripChars
  have h := List.dropWhile_suffix (l := (l.dropWhile isSpaceChar).reverse) isSpaceChar
  have h2 := h.reverse
  rwa [List.reverse_reverse] at h2

theorem head?_stripChars {c : Char} {l : List Char}
    (h : c ∈ (stripChars l).head?) : isSpaceChar c = false := by
  rcases stripChars_prefix l with ⟨t, ht⟩
  rw [Option.mem_def] at h
  have : (l.dropWhile isSpaceChar).head? = some c := by
    rw [← ht, List.head?_append, h]
    rfl
  exact head?_dropWhile_false (Option.mem_def.mpr this)

theorem getLast?_stripChars {c : Char} {l : List Char}
    (h : c ∈ (stripChars l).getLast?) : isSpaceChar c = false := by
  unfold stripChars at h
  rw [List.getLast?_reverse] at h
  exact head?_dropWhile_false h

theorem chain'_stripChars {l : List Char}
    (h : List.Chain' NotBothSpace l) :
    List.Chain' NotBothSpace (stripChars l) := by
  have h1 : List.Chain' NotBothSpace (l.dropWhile isSpaceChar) :=
    h.suffix (List.dropWhile_suffix isSpaceChar)
  have h2 : List.Chain' NotBothSpace (l.dropWhile isSpaceChar).reverse := by
    rw [List.chain'_reverse]
    exact h1.imp (fun _ _ hab h => hab ⟨h.2, h.1⟩)
  have h3 : List.Chain' NotBothSpace
      ((l.dropWhile isSpaceChar).reverse.dropWhile isSpaceChar) :=
    h2.suffix (List.dropWhile_suffix isSpaceChar)
  unfold stripChars
  rw [List.chain'_reverse]
  exact h3.imp (fun _ _ hab h => hab ⟨h.2, h.1⟩)

/-- Characters of the cleaned text are the introduced single space or
non-whitespace characters kept from the input. -/
theorem mem_cleanText {c : Char} {s : List Char} (h : c ∈ cleanText s) :
    c = ' ' ∨ (c ∈ s ∧ keepChar c = true ∧ isSpaceChar c = false) := by
  unfold cleanText at h
  have h1 := mem_stripChars h
  rcases mem_collapseWS h1 with h2 | ⟨h2, h3⟩
  · exact Or.inl h2
  · rcases List.mem_filter.mp h2 with ⟨h4, h5⟩
    exact Or.inr ⟨h4, h5, h3⟩

/-- C3: the text-cleaning function is idempotent. -/
theorem cleanText_idempotent (s : List Char) :
    cleanText (cleanText s) = cleanText s := by
  have htdef : cleanText s = stripChars (collapseWS false (s.filter keepChar)) := rfl
  have hmem : ∀ c ∈ cleanText s,
      c = ' ' ∨ (c ∈ s ∧ keepChar c = true ∧ isSpaceChar c = false) :=
    fun c hc => mem_cleanText hc
  have hfilter : (cleanText s).filter keepChar = cleanText s := by
    refine List.filter_eq_self.mpr (fun c hc => ?_)
    rcases hmem c hc with h | ⟨_, h, _⟩
    · subst h; decide
    · exact h
  have hblank : ∀ c ∈ cleanText s, isSpaceChar c = true → c = ' ' := by
    intro c hc hsp
    rcases hmem c hc with h | ⟨_, _, h⟩
    · exact h
    · rw [h] at hsp; exact absurd hsp (by simp)
  have hchain : List.Chain' NotBothSpace (cleanText s) := by
    rw [htdef]
    exact chain'_stripChars (chain'_collapseWS false _)
  have hcollapse : collapseWS false (cleanText s) = cleanText s :=
    (collapseWS_fix (cleanText s) hblank hchain).1
  have hstrip : stripChars (cleanText s) = cleanText s := by
    refine stripChars_eq_self (fun c hc => ?_) (fun c hc => ?_)
    · exact head?_stripChars (htdef ▸ hc)
    · exact getLast?_stripChars (htdef ▸ hc)
  show stripChars (collapseWS false ((cleanText s).filter keepChar)) = cleanText s
  rw [hfilter, hcollapse, hstrip]

/-- C4 (counterexample): cleaning CAN introduce a character that does not
occur in the input: collapsing the whitespace run `"\t"` introduces a
space character absent from the input. -/
theorem cleanText_counterexample :
    cleanText ['a', '\t', 'b'] = ['a', ' ', 'b'] ∧
      ' ' ∈ cleanText ['a', '\t', 'b'] ∧
      ' ' ∉ (['a', '\t', 'b'] : List Char) := by decide

/-- C4 (amended): every character occurring in the output of the cleaning
function either occurs in the input string or is the single space
character introduced when a whitespace run is collapsed. -/
theorem cleanText_no_new_chars (s : List Char) :
    ∀ c ∈ cleanText s, c ∈ s ∨ c = ' ' := by
  intro c hc
  rcases mem_cleanText hc with h | ⟨h, _, _⟩
  · exact Or.inr h
  · exact Or.inl h

/-- Witness for `cleanText_no_new_chars` at a concrete input. -/
theorem cleanText_no_new_chars_witness :
    'a' ∈ (['a', '\t', 'b'] : List Char) ∨ 'a' = ' ' :=
  cleanText_no_new_chars ['a', '\t', 'b'] 'a' (by decide)

/-! ### Data model of the pipeline (src/vocabulator.py lines 56-151) -/

/-- A spaCy token, as the pipeline reads it: its lemma string and the
`is_alpha` flag of the token. -/
structure Token where
  lemma_ : Word
  is_alpha : Bool

/-- The loaded spaCy language model: maps cleaned text to its token
sequence (`nlp(cleaned_text)`) and carries the stopword set
(`nlp.Defaults.stop_words`, as a membership predicate). -/
structure NlpModel where
  tokens : List Char → List Token
  stop_words : Word → Bool

/-- An entry of `SUPPORTED_LANGUAGES`: spaCy model name and optional
pyspellchecker language code. -/
structure LanguageDetails where
  spacy : Word
  spellchecker : Option Word

/-- Outcome of `fitz.open` plus page-text concatenation: either the bytes
were unparsable or they yield a raw text string. -/
inductive PdfResult where
  | parseError
  | parsed (rawText : List Char)

/-- The `st.info` / `st.warning` / `st.error` calls of
`extract_book_words`, in source order. -/
inductive Message where
  | infoReadingPDF
  | errorReadingPDF
  | warnNoTextExtracted
  | infoCleaningText
  | infoRemovingStopwords
  | warnNoProcessableWords
  | infoAttemptingSpellcheck
  | warnSpellcheckFilteredAllWords
  | warnNoWordsFoundInDictionary
  | warnCouldNotApplySpellcheck
  | infoNoConfiguredSpellchecker
  | warnNoWordsRemained
  deriving DecidableEq

inductive Severity where
  | info
  | warning
  | error
  deriving DecidableEq

/-- Which Streamlit call emits each message. -/
def Message.severity : Message → Severity
  | .infoReadingPDF => .info
  | .errorReadingPDF => .error
  | .warnNoTextExtracted => .warning
  | .infoCleaningText => .info
  | .infoRemovingStopwords => .info
  | .warnNoProcessableWords => .warning
  | .infoAttemptingSpellcheck => .info
  | .warnSpellcheckFilteredAllWords => .warning
  | .warnNoWordsFoundInDictionary => .warning
  | .warnCouldNotApplySpellcheck => .warning
  | .infoNoConfiguredSpellchecker => .info
  | .warnNoWordsRemained => .warning

/-- Python `word.lemma_.lower()`, character-wise. -/
def lowerWord (w : Word) : Word := w.map Char.toLower

/-- Lines 87-97: build the lemma list (alphabetic tokens whose lemma is
longer than one character, lower-cased) and optionally remove
stopwords. -/
def lemmasStage (nlp : NlpModel) (remove_stopwords : Bool)
    (cleaned_text : List Char) : List Word × List Message :=
  let spacy_doc := nlp.tokens cleaned_text
  let lemmas := (spacy_doc.filter
      (fun word => word.is_alpha && decide (word.lemma_.length > 1))).map
      (fun word => lowerWord word.lemma_)
  if remove_stopwords then
    (lemmas.filter (fun l => !nlp.stop_words l), [Message.infoRemovingStopwords])
  else
    (lemmas, [])

/-- Lines 110-130, the body of the `try` block once `SpellChecker` was
constructed with dictionary membership `dict`: `spell.known` restricted
to the candidates, the filtered sequence, and the two fallback
branches. -/
def spellcheckAttempt (dict : Word → Bool) (meaningful_lemmas : List Word) :
    List Word × List Message :=
  let dictionary_words := meaningful_lemmas.filter dict
  let current_lemmas_after_spellcheck :=
    meaningful_lemmas.filter (fun l => decide (l ∈ dictionary_words))
  if !meaningful_lemmas.isEmpty && current_lemmas_after_spellcheck.isEmpty then
    (meaningful_lemmas, [Message.warnSpellcheckFilteredAllWords])
  else if dictionary_words.isEmpty && !meaningful_lemmas.isEmpty then
    (meaningful_lemmas, [Message.warnNoWordsFoundInDictionary])
  else
    (current_lemmas_after_spellcheck, [])

/-- Lines 106-139: the whole optional dictionary-filter stage, including
the no-configured-code skip and the exception handler. -/
def dictionaryStage (enable_spellcheck : Bool)
    (language_details : LanguageDetails)
    (spell : Word → Except Word (Word → Bool))
    (meaningful_lemmas : List Word) : List Word × List Message :=
  if enable_spellcheck then
    match language_details.spellchecker with
    | some spellchecker_code =>
      match spell spellchecker_code with
      | .ok dict =>
        let r := spellcheckAttempt dict meaningful_lemmas
        (r.1, Message.infoAttemptingSpellcheck :: r.2)
      | .error _ =>
        (meaningful_lemmas,
          [Message.infoAttemptingSpellcheck, Message.warnCouldNotApplySpellcheck])
    | none => (meaningful_lemmas, [Message.infoNoConfiguredSpellchecker])
  else
    (meaningful_lemmas, [])

/-- Python `Counter(l)` key order: first occurrences, duplicates dropped. -/
def firstOccurrences : List Word → List Word
  | [] => []
  | w :: ws => w :: (firstOccurrences ws).filter (fun x => x != w)

/-- Python `Counter(l).items()`: each distinct word with its multiplicity. -/
def counterItems (l : List Word) : List (Word × Nat) :=
  (firstOccurrences l).map (fun w => (w, l.count w))

/-- Insert a row into a count-descending list, keeping it descending. -/
def insertByCount (p : Word × Nat) : List (Word × Nat) → List (Word × Nat)
  | [] => [p]
  | q :: qs => if p.2 ≤ q.2 then q :: insertByCount p qs else p :: q :: qs

/-- The call `.sort_values(by="Count", ascending=False)`: order rows by count
descending (the tie order of pandas' default quicksort is not part of the
contract). -/
def sortByCountDesc : List (Word × Nat) → List (Word × Nat)
  | [] => []
  | p :: ps => insertByCount p (sortByCountDesc ps)

/-- Lines 56-151, `extract_book_words`: the full pipeline, returning the
emitted messages in order and the resulting frequency table (`none` is
Python's `return None`). -/
def extract_book_words (pdf : PdfResult) (language_details : LanguageDetails)
    (remove_stopwords : Bool) (enable_spellcheck : Bool) (nlp : NlpModel)
    (spell : Word → Except Word (Word → Bool)) :
    List Message × Option (List (Word × Nat)) :=
  match pdf with
  | .parseError => ([Message.infoReadingPDF, Message.errorReadingPDF], none)
  | .parsed raw_text =>
    if stripChars raw_text = [] then
      ([Message.infoReadingPDF, Message.warnNoTextExtracted], none)
    else
      let stage := lemmasStage nlp remove_stopwords (cleanText raw_text)
      let preMsgs := Message.infoReadingPDF :: Message.infoCleaningText :: stage.2
      if stage.1 = [] then
        (preMsgs ++ [Message.warnNoProcessableWords], none)
      else
        let dictStage :=
          dictionaryStage enable_spellcheck language_details spell stage.1
        if dictStage.1 = [] then
          (preMsgs ++ dictStage.2 ++ [Message.warnNoWordsRemained], none)
        else
          (preMsgs ++ dictStage.2, some (sortByCountDesc (counterItems dictStage.1)))

/-! ### Pipeline lemmas -/

theorem spellcheck_current_eq (dict : Word → Bool) (ms : List Word) :
    ms.filter (fun l => decide (l ∈ ms.filter dict)) = ms.filter dict := by
  refine List.filter_congr (fun x hx => ?_)
  cases hd : dict x with
  | true => simp [List.mem_filter, hx, hd]
  | false => simp [List.mem_filter, hx, hd]

theorem mem_spellcheckAttempt {dict : Word → Bool} {ms : List Word} {w : Word}
    (h : w ∈ (spellcheckAttempt dict ms).1) : w ∈ ms := by
  simp only [spellcheckAttempt, spellcheck_current_eq] at h
  split at h
  · exact h
  · split at h
    · exact h
    · have h2 : w ∈ ms.filter dict := h
      exact (List.mem_filter.mp h2).1

theorem spellcheckAttempt_ne_nil {dict : Word → Bool} {ms : List Word}
    (h : ms ≠ []) : (spellcheckAttempt dict ms).1 ≠ [] := by
  simp only [spellcheckAttempt, spellcheck_current_eq]
  split
  · exact h
  · split
    · exact h
    · next hc1 _ =>
      intro hnil
      exact hc1 (by simp [h, show ms.filter dict = [] from hnil])

theorem spellcheckAttempt_adopt {dict : Word → Bool} {ms : List Word}
    (h : ms.filter dict ≠ []) :
    spellcheckAttempt dict ms = (ms.filter dict, []) := by
  have hne : (ms.filter dict).isEmpty = false := by simp [h]
  simp only [spellcheckAttempt, spellcheck_current_eq]
  rw [if_neg (by simp [hne]), if_neg (by simp [hne])]

theorem spellcheckAttempt_all_unknown {dict : Word → Bool} {ms : List Word}
    (hms : ms ≠ []) (h : ms.filter dict = []) :
    spellcheckAttempt dict ms = (ms, [Message.warnSpellcheckFilteredAllWords]) := by
  simp only [spellcheckAttempt, spellcheck_current_eq]
  rw [if_pos (by simp [h, hms])]

theorem mem_dictionaryStage {es : Bool} {ld : LanguageDetails}
    {spell : Word → Except Word (Word → Bool)} {ms : List Word} {w : Word}
    (h : w ∈ (dictionaryStage es ld spell ms).1) : w ∈ ms := by
  unfold dictionaryStage at h
  split at h
  · split at h
    · split at h
      · exact mem_spellcheckAttempt h
      · exact h
    · exact h
  · exact h

theorem dictionaryStage_ne_nil {es : Bool} {ld : LanguageDetails}
    {spell : Word → Except Word (Word → Bool)} {ms : List Word}
    (h : ms ≠ []) : (dictionaryStage es ld spell ms).1 ≠ [] := by
  unfold dictionaryStage
  split
  · split
    · split
      · exact spellcheckAttempt_ne_nil h
      · exact h
    · exact h
  · exact h

theorem spellcheckAttempt_msgs {dict : Word → Bool} {ms : List Word} {m : Message}
    (h : m ∈ (spellcheckAttempt dict ms).2) :
    m = Message.warnSpellcheckFilteredAllWords ∨
      m = Message.warnNoWordsFoundInDictionary := by
  simp only [spellcheckAttempt, spellcheck_current_eq] at h
  split at h
  · simp at h; exact Or.inl h
  · split at h
    · simp at h; exact Or.inr h
    · simp at h

theorem dictionaryStage_msgs {es : Bool} {ld : LanguageDetails}
    {spell : Word → Except Word (Word → Bool)} {ms : List Word} {m : Message}
    (h : m ∈ (dictionaryStage es ld spell ms).2) :
    m = Message.infoAttemptingSpellcheck ∨
      m = Message.warnSpellcheckFilteredAllWords ∨
      m = Message.warnNoWordsFoundInDictionary ∨
      m = Message.warnCouldNotApplySpellcheck ∨
      m = Message.infoNoConfiguredSpellchecker := by
  unfold dictionaryStage at h
  split at h
  · split at h
    · split at h
      · simp only [List.mem_cons] at h
        rcases h with h | h
        · exact Or.inl h
        · rcases spellcheckAttempt_msgs h with h | h
          · exact Or.inr (Or.inl h)
          · exact Or.inr (Or.inr (Or.inl h))
      · simp at h
        rcases h with h | h
        · exact Or.inl h
        · exact Or.inr (Or.inr (Or.inr (Or.inl h)))
    · simp at h
      exact Or.inr (Or.inr (Or.inr (Or.inr h)))
  · simp at h

theorem lemmasStage_msgs {nlp : NlpModel} {rs : Bool} {ct : List Char} {m : Message}
    (h : m ∈ (lemmasStage nlp rs ct).2) : m = Message.infoRemovingStopwords := by
  unfold lemmasStage at h
  split at h
  · simpa using h
  · simp at h

theorem mem_lemmasStage {nlp : NlpModel} {rs : Bool} {ct : List Char} {w : Word}
    (h : w ∈ (lemmasStage nlp rs ct).1) :
    (∃ tok ∈ nlp.tokens ct, tok.is_alpha = true ∧ tok.lemma_.length > 1 ∧
        w = lowerWord tok.lemma_) ∧
      (rs = true → nlp.stop_words w = false) := by
  unfold lemmasStage at h
  have base :
      ∀ {v : Word}, v ∈ (nlp.tokens ct |>.filter
          (fun word => word.is_alpha && decide (word.lemma_.length > 1))).map
          (fun word => lowerWord word.lemma_) →
        ∃ tok ∈ nlp.tokens ct, tok.is_alpha = true ∧ tok.lemma_.length > 1 ∧
          v = lowerWord tok.lemma_ := by
    intro v hv
    rcases List.mem_map.mp hv with ⟨tok, htok, hvm⟩
    rcases List.mem_filter.mp htok with ⟨htok1, htok2⟩
    rcases (Bool.and_eq_true _ _).mp htok2 with ⟨ha, hlen⟩
    exact ⟨tok, htok1, ha, of_decide_eq_true hlen, hvm.symm⟩
  split at h
  · next hrs =>
    rcases List.mem_filter.mp h with ⟨h1, h2⟩
    refine ⟨base h1, fun _ => ?_⟩
    cases hsw : nlp.stop_words w with
    | true => rw [hsw] at h2; simp at h2
    | false => rfl
  · next hrs =>
    refine ⟨base h, fun hc => absurd hc hrs⟩

/-! ### Lowercasing, sorting and counting lemmas -/

theorem char_toNat_ofNat_valid {m : Nat} (h : m < 55296) :
    (Char.ofNat m).toNat = m := by
  rw [Char.ofNat, dif_pos (Or.inl h)]
  simp [Char.ofNatAux, Char.toNat, UInt32.ofNat', UInt32.toNat, BitVec.ofNatLt]

theorem toLower_toLower (c : Char) : (c.toLower).toLower = c.toLower := by
  simp only [Char.toLower]
  by_cases h : 65 ≤ c.toNat ∧ c.toNat ≤ 90
  · simp only [if_pos h]
    have h2 : (Char.ofNat (c.toNat + 32)).toNat = c.toNat + 32 :=
      char_toNat_ofNat_valid (by omega)
    rw [h2, if_neg (by omega)]
  · simp only [if_neg h]

theorem lowerWord_idem (w : Word) : lowerWord (lowerWord w) = lowerWord w := by
  unfold lowerWord
  rw [List.map_map]
  exact List.map_congr_left (fun c _ => toLower_toLower c)

theorem lowerWord_length (w : Word) : (lowerWord w).length = w.length :=
  List.length_map w Char.toLower

theorem perm_insertByCount (p : Word × Nat) :
    ∀ (l : List (Word × Nat)), (insertByCount p l).Perm (p :: l) := by
  intro l
  induction l with
  | nil => exact List.Perm.refl _
  | cons q qs ih =>
    unfold insertByCount
    split
    · exact (ih.cons q).trans (List.Perm.swap p q qs)
    · exact List.Perm.refl _

theorem mem_insertByCount {x p : Word × Nat} {l : List (Word × Nat)}
    (h : x ∈ insertByCount p l) : x = p ∨ x ∈ l := by
  have := (perm_insertByCount p l).mem_iff.mp h
  simpa using this

theorem pairwise_insertByCount {p : Word × Nat} {l : List (Word × Nat)}
    (h : List.Pairwise (fun a b : Word × Nat => b.2 ≤ a.2) l) :
    List.Pairwise (fun a b : Word × Nat => b.2 ≤ a.2) (insertByCount p l) := by
  induction l with
  | nil => simp [insertByCount]
  | cons q qs ih =>
    rcases List.pairwise_cons.mp h with ⟨hq, hqs⟩
    unfold insertByCount
    split
    · next hle =>
      refine List.pairwise_cons.mpr ⟨?_, ih hqs⟩
      intro x hx
      rcases mem_insertByCount hx with hx | hx
      · subst hx; exact hle
      · exact hq x hx
    · next hle =>
      refine List.pairwise_cons.mpr ⟨?_, h⟩
      intro x hx
      rcases List.mem_cons.mp hx with hx | hx
      · subst hx; exact Nat.le_of_not_le hle
      · exact Nat.le_trans (hq x hx) (Nat.le_of_not_le hle)

theorem perm_sortByCountDesc :
    ∀ (l : List (Word × Nat)), (sortByCountDesc l).Perm l := by
  intro l
  induction l with
  | nil => exact List.Perm.refl _
  | cons p ps ih =>
    exact (perm_insertByCount p (sortByCountDesc ps)).trans (ih.cons p)

theorem pairwise_sortByCountDesc :
    ∀ (l : List (Word × Nat)),
      List.Pairwise (fun a b : Word × Nat => b.2 ≤ a.2) (sortByCountDesc l) := by
  intro l
  induction l with
  | nil => simp [sortByCountDesc]
  | cons p ps ih => exact pairwise_insertByCount ih

theorem mem_firstOccurrences {x : Word} :
    ∀ {l : List Word}, x ∈ firstOccurrences l ↔ x ∈ l := by
  intro l
  induction l with
  | nil => simp [firstOccurrences]
  | cons w ws ih =>
    simp only [firstOccurrences, List.mem_cons, List.mem_filter, bne_iff_ne,
      ne_eq, ih]
    constructor
    · rintro (h | ⟨h, _⟩)
      · exact Or.inl h
      · exact Or.inr h
    · rintro (h | h)
      · exact Or.inl h
      · by_cases hxw : x = w
        · exact Or.inl hxw
        · exact Or.inr ⟨h, hxw⟩

theorem nodup_firstOccurrences : ∀ (l : List Word), (firstOccurrences l).Nodup := by
  intro l
  induction l with
  | nil => simp [firstOccurrences]
  | cons w ws ih =>
    refine List.nodup_cons.mpr ⟨?_, List.Nodup.filter _ ih⟩
    intro hmem
    have := (List.mem_filter.mp hmem).2
    simp at this

theorem perm_firstOccurrences_dedup (l : List Word) :
    (firstOccurrences l).Perm l.dedup := by
  refine (List.perm_ext_iff_of_nodup (nodup_firstOccurrences l)
    (List.nodup_dedup l)).mpr (fun a => ?_)
  rw [mem_firstOccurrences, List.mem_dedup]

theorem count_inst_eq (w : Word) : ∀ (l : List Word),
    l.count w = @List.count Word instBEqOfDecidableEq w l := by
  intro l
  induction l with
  | nil => rfl
  | cons b t ih =>
    rw [List.count_cons w b, @List.count_cons Word instBEqOfDecidableEq w b, ih]
    by_cases hbw : b = w
    · rw [if_pos (by simp [hbw]), if_pos (by simp [hbw])]
    · rw [if_neg (by simp [hbw]), if_neg (by simp [hbw])]

theorem counterItems_total (l : List Word) :
    ((counterItems l).map Prod.snd).sum = l.length := by
  unfold counterItems
  rw [List.map_map]
  have h1 : ((firstOccurrences l).map
        (Prod.snd ∘ fun w => ((w, l.count w) : Word × Nat))) =
      (firstOccurrences l).map fun w => @List.count Word instBEqOfDecidableEq w l :=
    List.map_congr_left (fun w _ => count_inst_eq w l)
  rw [h1]
  have hperm := (perm_firstOccurrences_dedup l).map
    (fun w => @List.count Word instBEqOfDecidableEq w l)
  rw [hperm.sum_eq]
  exact List.sum_map_count_dedup_eq_length l

theorem counterItems_keys (l : List Word) :
    (counterItems l).map Prod.fst = firstOccurrences l := by
  unfold counterItems
  rw [List.map_map]
  exact List.map_id _

theorem counterItems_keys_nodup (l : List Word) :
    ((counterItems l).map Prod.fst).Nodup := by
  rw [counterItems_keys]
  exact nodup_firstOccurrences l

/-! ### Inversion of a successful run -/

theorem extract_parsed_some {raw : List Char} {ld : LanguageDetails}
    {rs es : Bool} {nlp : NlpModel} {spell : Word → Except Word (Word → Bool)}
    {rows : List (Word × Nat)}
    (hres : (extract_book_words (.parsed raw) ld rs es nlp spell).2 = some rows) :
    stripChars raw ≠ [] ∧
      (lemmasStage nlp rs (cleanText raw)).1 ≠ [] ∧
      (dictionaryStage es ld spell (lemmasStage nlp rs (cleanText raw)).1).1 ≠ [] ∧
      rows = sortByCountDesc (counterItems
        (dictionaryStage es ld spell (lemmasStage nlp rs (cleanText raw)).1).1) := by
  simp only [extract_book_words] at hres
  split at hres
  · simp at hres
  · split at hres
    · simp at hres
    · split at hres
      · simp at hres
      · next h1 h2 h3 =>
        simp only [Prod.snd] at hres
        exact ⟨h1, h2, h3, (Option.some.injEq _ _ ▸ hres).symm⟩

/-! ### Claims -/

/-- C5: in every produced frequency table, consecutive rows have
non-increasing counts. -/
theorem frequency_table_sorted_desc (pdf : PdfResult) (ld : LanguageDetails)
    (rs es : Bool) (nlp : NlpModel) (spell : Word → Except Word (Word → Bool))
    (rows : List (Word × Nat))
    (hres : (extract_book_words pdf ld rs es nlp spell).2 = some rows) :
    List.Chain' (fun r1 r2 : Word × Nat => r2.2 ≤ r1.2) rows := by
  cases pdf with
  | parseError => simp [extract_book_words] at hres
  | parsed raw =>
    rcases extract_parsed_some hres with ⟨_, _, _, hrows⟩
    rw [hrows]
    exact (pairwise_sortByCountDesc _).chain'

/-- Witness for `frequency_table_sorted_desc` at a concrete run. -/
theorem frequency_table_sorted_desc_witness :
    List.Chain' (fun r1 r2 : Word × Nat => r2.2 ≤ r1.2)
      [((['a', 'b'] : Word), 2), (['c', 'd'], 1)] :=
  frequency_table_sorted_desc (.parsed ['a', 'b']) ⟨['e', 'n'], none⟩ false false
    ⟨fun _ => [⟨['a', 'b'], true⟩, ⟨['c', 'd'], true⟩, ⟨['a', 'b'], true⟩],
      fun _ => false⟩
    (fun _ => .error ['x']) [(['a', 'b'], 2), (['c', 'd'], 1)] (by decide)

/-- C6: for every final filtered lemma sequence, the counts of the table
built from it sum to the sequence's length, and the table keys contain no
duplicates. -/
theorem frequency_table_total_and_keys_nodup (final_sequence : List Word) :
    ((sortByCountDesc (counterItems final_sequence)).map Prod.snd).sum
        = final_sequence.length ∧
      ((sortByCountDesc (counterItems final_sequence)).map Prod.fst).Nodup := by
  have hperm := perm_sortByCountDesc (counterItems final_sequence)
  constructor
  · rw [(hperm.map Prod.snd).sum_eq]
    exact counterItems_total final_sequence
  · exact (counterItems_keys_nodup final_sequence).perm ((hperm.map Prod.fst).symm)

/-- C2: when the dictionary recognizes none of a non-empty candidate
sequence, the stage returns the pre-filter sequence unchanged and emits a
warning. -/
theorem dictionary_zero_known_fallback (dict : Word → Bool) (ms : List Word)
    (hms : ms ≠ []) (hzero : ∀ w ∈ ms, dict w = false) :
    (spellcheckAttempt dict ms).1 = ms ∧
      (spellcheckAttempt dict ms).2 = [Message.warnSpellcheckFilteredAllWords] ∧
      Message.severity .warnSpellcheckFilteredAllWords = .warning := by
  have hfilter : ms.filter dict = [] := by
    rw [List.filter_eq_nil_iff]
    intro a ha
    simp [hzero a ha]
  rw [spellcheckAttempt_all_unknown hms hfilter]
  exact ⟨rfl, rfl, rfl⟩

/-- Witness for `dictionary_zero_known_fallback` at a concrete input. -/
theorem dictionary_zero_known_fallback_witness :
    (spellcheckAttempt (fun _ => false) [(['a', 'b'] : Word)]).1 = [['a', 'b']] ∧
      (spellcheckAttempt (fun _ => false) [(['a', 'b'] : Word)]).2 =
        [Message.warnSpellcheckFilteredAllWords] ∧
      Message.severity .warnSpellcheckFilteredAllWords = .warning :=
  dictionary_zero_known_fallback (fun _ => false) [['a', 'b']] (by decide)
    (fun w _ => rfl)

/-- C8: a spell-checker failure is caught: the stage emits a warning and
passes the pre-filter sequence on unchanged, never failing the request. -/
theorem spellcheck_error_caught (ld : LanguageDetails) (code errText : Word)
    (spell : Word → Except Word (Word → Bool)) (ms : List Word)
    (hcode : ld.spellchecker = some code) (herr : spell code = .error errText) :
    dictionaryStage true ld spell ms =
        (ms, [Message.infoAttemptingSpellcheck,
          Message.warnCouldNotApplySpellcheck]) ∧
      Message.severity .warnCouldNotApplySpellcheck = .warning := by
  refine ⟨?_, rfl⟩
  simp [dictionaryStage, hcode, herr]

/-- Witness for `spellcheck_error_caught` at a concrete input. -/
theorem spellcheck_error_caught_witness :
    dictionaryStage true ⟨['e', 'n'], some ['e', 'n']⟩
        (fun _ => .error ['b', 'o', 'o', 'm']) [(['a', 'b'] : Word)] =
        ([['a', 'b']], [Message.infoAttemptingSpellcheck,
          Message.warnCouldNotApplySpellcheck]) ∧
      Message.severity .warnCouldNotApplySpellcheck = .warning :=
  spellcheck_error_caught ⟨['e', 'n'], some ['e', 'n']⟩ ['e', 'n']
    ['b', 'o', 'o', 'm'] (fun _ => .error ['b', 'o', 'o', 'm']) [['a', 'b']]
    rfl rfl

/-- C9: with dictionary filtering requested but no configured dictionary
identifier, the stage is skipped: sequence unchanged, informational note
(not a warning). -/
theorem no_configured_spellchecker_skips (ld : LanguageDetails)
    (spell : Word → Except Word (Word → Bool)) (ms : List Word)
    (hnone : ld.spellchecker = none) :
    dictionaryStage true ld spell ms =
        (ms, [Message.infoNoConfiguredSpellchecker]) ∧
      Message.severity .infoNoConfiguredSpellchecker = .info ∧
      Message.severity .infoNoConfiguredSpellchecker ≠ Severity.warning := by
  refine ⟨?_, rfl, by decide⟩
  simp [dictionaryStage, hnone]

/-- Witness for `no_configured_spellchecker_skips` at a concrete input. -/
theorem no_configured_spellchecker_skips_witness :
    dictionaryStage true ⟨['c', 'a'], none⟩
        (fun _ => .ok (fun _ => true)) [(['a', 'b'] : Word)] =
        ([['a', 'b']], [Message.infoNoConfiguredSpellchecker]) ∧
      Message.severity .infoNoConfiguredSpellchecker = .info ∧
      Message.severity .infoNoConfiguredSpellchecker ≠ Severity.warning :=
  no_configured_spellchecker_skips ⟨['c', 'a'], none⟩
    (fun _ => .ok (fun _ => true)) [['a', 'b']] rfl

/-- C10: the final "no words remained after all processing steps" branch
is unreachable: its warning is never emitted on any run. -/
theorem final_empty_check_unreachable (pdf : PdfResult) (ld : LanguageDetails)
    (rs es : Bool) (nlp : NlpModel) (spell : Word → Except Word (Word → Bool)) :
    Message.warnNoWordsRemained ∉ (extract_book_words pdf ld rs es nlp spell).1 := by
  cases pdf with
  | parseError =>
    simp only [extract_book_words]
    decide
  | parsed raw =>
    simp only [extract_book_words]
    split
    · decide
    · split
      · intro hmem
        rcases List.mem_append.mp hmem with hmem | hmem
        · rcases List.mem_cons.mp hmem with h | hmem
          · exact absurd h (by decide)
          · rcases List.mem_cons.mp hmem with h | hmem
            · exact absurd h (by decide)
            · exact absurd (lemmasStage_msgs hmem) (by decide)
        · rcases List.mem_cons.mp hmem with h | hmem
          · exact absurd h (by decide)
          · simp at hmem
      · split
        · next h2 h3 => exact absurd h3 (dictionaryStage_ne_nil h2)
        · intro hmem
          rcases List.mem_append.mp hmem with hmem | hmem
          · rcases List.mem_cons.mp hmem with h | hmem
            · exact absurd h (by decide)
            · rcases List.mem_cons.mp hmem with h | hmem
              · exact absurd h (by decide)
              · exact absurd (lemmasStage_msgs hmem) (by decide)
          · rcases dictionaryStage_msgs hmem with h | h | h | h | h <;>
              exact absurd h (by decide)

/-- C7 (counterexample): a run whose lemma sequence is empty after basic
filtering and a run whose lemma sequence empties only at stopword removal
emit the SAME no-data warning, so the messages do not distinguish the
four claimed cases. -/
theorem no_data_message_shared_counterexample :
    (extract_book_words (.parsed ['z', 'q']) ⟨['e', 'n'], none⟩ false false
        ⟨fun _ => [⟨['z', 'q'], false⟩], fun _ => false⟩
        (fun _ => .error ['x'])) =
      ([Message.infoReadingPDF, Message.infoCleaningText,
        Message.warnNoProcessableWords], none) ∧
    (extract_book_words (.parsed ['t', 'h', 'e']) ⟨['e', 'n'], none⟩ true false
        ⟨fun _ => [⟨['t', 'h', 'e'], true⟩],
          fun w => decide (w = ['t', 'h', 'e'])⟩
        (fun _ => .error ['x'])) =
      ([Message.infoReadingPDF, Message.infoCleaningText,
        Message.infoRemovingStopwords, Message.warnNoProcessableWords], none) := by
  decide

/-- C7 (amended): whenever the lemma sequence is empty at a filtering
stage, the pipeline returns a no-data outcome (`none`, not an exception)
with a stage-specific warning; the code distinguishes three cases, the
empty-after-basic-filtering and empty-after-stopword-removal cases
sharing one message. -/
theorem no_data_outcome (raw : List Char) (ld : LanguageDetails) (rs es : Bool)
    (nlp : NlpModel) (spell : Word → Except Word (Word → Bool))
    (h : stripChars raw = [] ∨ (lemmasStage nlp rs (cleanText raw)).1 = []) :
    (extract_book_words (.parsed raw) ld rs es nlp spell).2 = none ∧
      (stripChars raw = [] →
        (extract_book_words (.parsed raw) ld rs es nlp spell).1 =
          [Message.infoReadingPDF, Message.warnNoTextExtracted]) ∧
      (stripChars raw ≠ [] →
        Message.warnNoProcessableWords ∈
            (extract_book_words (.parsed raw) ld rs es nlp spell).1 ∧
          Message.warnNoTextExtracted ∉
            (extract_book_words (.parsed raw) ld rs es nlp spell).1) ∧
      Message.warnNoTextExtracted ≠ Message.warnNoProcessableWords := by
  by_cases h1 : stripChars raw = []
  · have hext : extract_book_words (.parsed raw) ld rs es nlp spell =
        ([Message.infoReadingPDF, Message.warnNoTextExtracted], none) := by
      simp [extract_book_words, h1]
    refine ⟨by rw [hext], fun _ => by rw [hext], fun hc => absurd h1 hc, by decide⟩
  · have hlem : (lemmasStage nlp rs (cleanText raw)).1 = [] := h.resolve_left h1
    have hext : extract_book_words (.parsed raw) ld rs es nlp spell =
        ((Message.infoReadingPDF :: Message.infoCleaningText ::
            (lemmasStage nlp rs (cleanText raw)).2) ++
          [Message.warnNoProcessableWords], none) := by
      simp [extract_book_words, h1, hlem]
    refine ⟨by rw [hext], fun hc => absurd hc h1, fun _ => ⟨?_, ?_⟩, by decide⟩
    · rw [hext]
      simp
    · rw [hext]
      intro hmem
      rcases List.mem_append.mp hmem with hmem | hmem
      · rcases List.mem_cons.mp hmem with hx | hmem
        · exact absurd hx (by decide)
        · rcases List.mem_cons.mp hmem with hx | hmem
          · exact absurd hx (by decide)
          · exact absurd (lemmasStage_msgs hmem) (by decide)
      · rcases List.mem_cons.mp hmem with hx | hmem
        · exact absurd hx (by decide)
        · simp at hmem

/-- Witness for `no_data_outcome` at a concrete input. -/
theorem no_data_outcome_witness :
    (extract_book_words (.parsed []) ⟨['e', 'n'], none⟩ false false
          ⟨fun _ => [], fun _ => false⟩ (fun _ => .error ['x'])).2 = none ∧
      (stripChars [] = [] →
        (extract_book_words (.parsed []) ⟨['e', 'n'], none⟩ false false
            ⟨fun _ => [], fun _ => false⟩ (fun _ => .error ['x'])).1 =
          [Message.infoReadingPDF, Message.warnNoTextExtracted]) ∧
      (stripChars [] ≠ [] →
        Message.warnNoProcessableWords ∈
            (extract_book_words (.parsed []) ⟨['e', 'n'], none⟩ false false
              ⟨fun _ => [], fun _ => false⟩ (fun _ => .error ['x'])).1 ∧
          Message.warnNoTextExtracted ∉
            (extract_book_words (.parsed []) ⟨['e', 'n'], none⟩ false false
              ⟨fun _ => [], fun _ => false⟩ (fun _ => .error ['x'])).1) ∧
      Message.warnNoTextExtracted ≠ Message.warnNoProcessableWords :=
  no_data_outcome [] ⟨['e', 'n'], none⟩ false false
    ⟨fun _ => [], fun _ => false⟩ (fun _ => .error ['x']) (Or.inl rfl)

/-- C1: every key of a produced frequency table comes from a token tagged
alphabetic whose lemma has more than one character; it is lower-cased (a
fixed point of lowercasing, of length at least 2); if stopword removal was
requested it is not a stopword; and if dictionary filtering was requested,
configured, succeeded and its result was adopted (fallback not
triggered), the key is in the dictionary. -/
theorem table_keys_invariant (raw : List Char) (ld : LanguageDetails)
    (rs es : Bool) (nlp : NlpModel) (spell : Word → Except Word (Word → Bool))
    (rows : List (Word × Nat)) (w : Word) (cnt : Nat)
    (hres : (extract_book_words (.parsed raw) ld rs es nlp spell).2 = some rows)
    (hrow : (w, cnt) ∈ rows) :
    (∃ tok ∈ nlp.tokens (cleanText raw), tok.is_alpha = true ∧
        tok.lemma_.length > 1 ∧ w = lowerWord tok.lemma_) ∧
      lowerWord w = w ∧ 2 ≤ w.length ∧
      (rs = true → nlp.stop_words w = false) ∧
      (∀ code dict, es = true → ld.spellchecker = some code →
        spell code = .ok dict →
        (lemmasStage nlp rs (cleanText raw)).1.filter dict ≠ [] →
        dict w = true) := by
  rcases extract_parsed_some hres with ⟨_, _, _, hrows⟩
  have hw_final : w ∈
      (dictionaryStage es ld spell (lemmasStage nlp rs (cleanText raw)).1).1 := by
    have h1 : (w, cnt) ∈
        counterItems (dictionaryStage es ld spell
          (lemmasStage nlp rs (cleanText raw)).1).1 :=
      (perm_sortByCountDesc _).mem_iff.mp (hrows ▸ hrow)
    have h2 : w ∈ (counterItems (dictionaryStage es ld spell
        (lemmasStage nlp rs (cleanText raw)).1).1).map Prod.fst :=
      List.mem_map.mpr ⟨(w, cnt), h1, rfl⟩
    rw [counterItems_keys] at h2
    exact mem_firstOccurrences.mp h2
  have hw_lem : w ∈ (lemmasStage nlp rs (cleanText raw)).1 :=
    mem_dictionaryStage hw_final
  rcases mem_lemmasStage hw_lem with ⟨⟨tok, htok, ha, hlen, hwl⟩, hstop⟩
  refine ⟨⟨tok, htok, ha, hlen, hwl⟩, ?_, ?_, hstop, ?_⟩
  · rw [hwl]
    exact lowerWord_idem _
  · rw [hwl, lowerWord_length]
    omega
  · intro code dict hes hcode hok hne
    subst hes
    have hadopt : (dictionaryStage true ld spell
        (lemmasStage nlp rs (cleanText raw)).1).1 =
        (lemmasStage nlp rs (cleanText raw)).1.filter dict := by
      simp only [dictionaryStage, hcode, hok, if_true]
      rw [spellcheckAttempt_adopt hne]
    rw [hadopt] at hw_final
    exact (List.mem_filter.mp hw_final).2

/-- Witness for `table_keys_invariant` at a concrete run. -/
theorem table_keys_invariant_witness :
    lowerWord ['a', 'b'] = ['a', 'b'] ∧ 2 ≤ (['a', 'b'] : Word).length ∧
      (fun _ : Word => false) ['a', 'b'] = false ∧
      (fun _ : Word => true) ['a', 'b'] = true := by
  have h := table_keys_invariant ['a', 'b'] ⟨['e', 'n'], some ['e', 'n']⟩
    true true ⟨fun _ => [⟨['a', 'b'], true⟩], fun _ => false⟩
    (fun _ => .ok (fun _ => true)) [(['a', 'b'], 1)] ['a', 'b'] 1
    (by decide) (by decide)
  exact ⟨h.2.1, h.2.2.1, h.2.2.2.1 rfl,
    h.2.2.2.2 ['e', 'n'] (fun _ => true) rfl rfl rfl (by decide)⟩
